import Mathlib

/-!
# Verification of the Chow-Liu tree learner

A shallow embedding of `cirkit/templates/region_graph/algorithms/chow_liu.py`
together with theorems about the embedded definitions.

Modelling conventions:
* A data matrix is a `List (List ℚ)` of rows (samples); entry access
  `r.getD i 0` stands for `data[s, i]`.  Exact rationals stand for the
  floating-point values of the source; `ℝ` is used for quantities built
  with logarithms.
* Values that the floating-point program turns into `NaN`/`±∞` are
  modelled by `none : Option ℝ`; finite results by `some x`.
* `torch.Tensor.long()` truncates toward zero, embedded as `tlong` via
  `Int.tdiv` on the rational's numerator and denominator.
* The trusted graph primitives of `scipy.sparse.csgraph` are embedded
  executably: `minimum_spanning_tree` by its contract (a cost-minimal
  spanning tree, `IsMinCostTree`), `dijkstra` by `n` rounds of
  Bellman-Ford relaxation `bfDist` (equal to shortest-path distance on a
  graph with at most `n` vertices), and `breadth_first_order` by the
  layered expansion `layer`/`parent`/`bfsTree`.
-/

namespace ChowLiu

/-- `torch.Tensor.long()` on one value: truncation toward zero. -/
def tlong (q : ℚ) : ℤ := q.num.tdiv q.den

/-! ## Pairwise statistics counter (`_categorical_mutual_info`, counts) -/

/-- `joint_counts[i, j, a, b]`: number of samples `r` with
`r[i] = a` and `r[j] = b` (integer-coded data, after `.long()`). -/
def jointCount (data : List (List ℤ)) (i j a b : ℕ) : ℕ :=
  data.countP fun r => decide (r.getD i 0 = (a : ℤ) ∧ r.getD j 0 = (b : ℤ))

/-- Chunks of at most `cs` rows, as produced by `data.split(chunk_size)`
(fuel recursion on the length). -/
def chunksGo {β : Type} (cs : ℕ) : ℕ → List β → List (List β)
  | 0, _ => []
  | _, [] => []
  | fuel + 1, l => l.take cs :: chunksGo cs fuel (l.drop cs)

/-- `data.split(cs)`. -/
def chunksOf {β : Type} (cs : ℕ) (l : List β) : List (List β) :=
  chunksGo cs l.length l

/-- The chunked accumulation of `joint_counts` (the `scatter_add_` loop):
counts are accumulated chunk by chunk and summed. -/
def jointCountC (cs : ℕ) (data : List (List ℤ)) (i j a b : ℕ) : ℕ :=
  ((chunksOf cs data).map fun c => jointCount c i j a b).sum

/-- `marginal_counts[i, a]`, read from the diagonal block of the chunked
joint-count tensor (`joint_counts[i, i, a, a]`). -/
def margCountC (cs : ℕ) (data : List (List ℤ)) (i a : ℕ) : ℕ :=
  jointCountC cs data i i a a

/-! ## Categorical mutual-information estimator -/

/-- Smoothed marginal probability
`(marginal_counts + num_categories * alpha) / (n_samples + num_categories^2 * alpha)`. -/
noncomputable def margP (cs : ℕ) (data : List (List ℤ)) (K : ℕ) (α : ℝ) (i a : ℕ) : ℝ :=
  ((margCountC cs data i a : ℝ) + K * α) / ((data.length : ℝ) + K ^ 2 * α)

/-- Smoothed joint probability
`(joint_counts + alpha) / (n_samples + num_categories^2 * alpha)`. -/
noncomputable def jointP (cs : ℕ) (data : List (List ℤ)) (K : ℕ) (α : ℝ) (i j a b : ℕ) : ℝ :=
  ((jointCountC cs data i j a b : ℝ) + α) / ((data.length : ℝ) + K ^ 2 * α)

/-- One entry of the matrix returned by `_categorical_mutual_info` with
chunk size `cs`: `(joints * (joints.log() - outers.log())).sum(dim=(2,3))`
followed by `.fill_diagonal_(0)`.  The diagonal blocks of `joints` are
overwritten with `diag_embed(marginals)` in the source, but those blocks
only feed the `i = j` entries, which the final `fill_diagonal_(0)` sets
to `0`; the embedding records that final value directly. -/
noncomputable def catMIentryC (cs : ℕ) (data : List (List ℤ)) (K : ℕ) (α : ℝ) (i j : ℕ) : ℝ :=
  if i = j then 0
  else
    ∑ a ∈ Finset.range K, ∑ b ∈ Finset.range K,
      jointP cs data K α i j a b *
        (Real.log (jointP cs data K α i j a b) -
          Real.log (margP cs data K α i a * margP cs data K α j b))

/-- `_categorical_mutual_info` with `chunk_size=None`
(the default `chunk_size = n_samples`). -/
noncomputable def catMIentry (data : List (List ℤ)) (K : ℕ) (α : ℝ) (i j : ℕ) : ℝ :=
  catMIentryC data.length data K α i j

/-- `num_categories` inference `int(data.max().item() + 1)` on integer-coded
data (the `0` seed of the folds is absorbed by the non-negative codes of
valid categorical data). -/
def inferK (data : List (List ℤ)) : ℕ :=
  ((data.map fun r => r.foldr max 0).foldr max 0 + 1).toNat

/-! ## Continuous (Gaussian) estimator -/

/-- Column `i` of the data, `data[:, i]`. -/
def colQ (rows : List (List ℚ)) (i : ℕ) : List ℚ :=
  rows.map fun r => r.getD i 0

/-- Mean of a column. -/
def meanQ (l : List ℚ) : ℚ := l.sum / l.length

/-- Population variance (`torch.var(x, unbiased=False)`). -/
def varQ (l : List ℚ) : ℚ :=
  ((l.map fun x => (x - meanQ l) ^ 2).sum) / l.length

/-- Population covariance of two columns. -/
def covQ (x y : List ℚ) : ℚ :=
  ((List.zipWith (fun a b => (a - meanQ x) * (b - meanQ y)) x y).sum) / x.length

/-- Squared Pearson correlation `corrcoef(i, j)^2`.  The normalisation of
the covariance (`1/N` versus `1/(N-1)`) cancels in the ratio, so the
population statistics give exactly the square of `torch.corrcoef`. -/
def rhoSq (rows : List (List ℚ)) (i j : ℕ) : ℚ :=
  (covQ (colQ rows i) (colQ rows j)) ^ 2 / (varQ (colQ rows i) * varQ (colQ rows j))

/-- The entry `-0.5 * log(1 - corrcoef^2)` is a finite float exactly when
both variances are nonzero (else `corrcoef` is `NaN`) and `rho^2 < 1`
(at `rho^2 = 1`, `log 0` gives `-inf` and the entry `+inf`); by
Cauchy-Schwarz `rho^2 ≤ 1` always holds in exact arithmetic. -/
def gaussDefined (rows : List (List ℚ)) (i j : ℕ) : Bool :=
  decide (varQ (colQ rows i) ≠ 0) && decide (varQ (colQ rows j) ≠ 0) &&
    decide (rhoSq rows i j < 1)

/-- One entry of `-0.5 * torch.log(1 - torch.corrcoef(data.t()) ** 2)`
(the single-tag gaussian path, line 60): `none` models a `NaN`/`±inf`
float entry. -/
noncomputable def gaussMIentry (rows : List (List ℚ)) (i j : ℕ) : Option ℝ :=
  if gaussDefined rows i j then
    some (-(1 / 2) * Real.log (1 - (rhoSq rows i j : ℝ)))
  else none

/-! ## Heterogeneous estimator (`_heterogeneous_mutual_info`) -/

/-- Indices of continuous columns (`torch.where(~is_categorical)[0]`). -/
def contIdx (mask : List Bool) : List ℕ :=
  (List.range mask.length).filter fun k => !(mask.getD k false)

/-- Indices of discrete columns (`torch.where(is_categorical)[0]`). -/
def discIdx (mask : List Bool) : List ℕ :=
  (List.range mask.length).filter fun k => mask.getD k false

/-- Column-subset of the data, `data[:, cols]`. -/
def subCols (rows : List (List ℚ)) (cols : List ℕ) : List (List ℚ) :=
  rows.map fun r => cols.map fun c => r.getD c 0

/-- `.long()` on a whole matrix. -/
def longRows (rows : List (List ℚ)) : List (List ℤ) :=
  rows.map (List.map tlong)

/-- Position of column `i` inside a column-index list. -/
def posIn (l : List ℕ) (i : ℕ) : ℕ := l.indexOf i

/-- `num_categories[d] = int(data[:, d].max() + 1)` (float max, then
truncation; the `0` fold seed is absorbed by valid non-negative codes). -/
def catColK (rows : List (List ℚ)) (d : ℕ) : ℕ :=
  (tlong ((colQ rows d).foldr max 0 + 1)).toNat

/-- `data[:, d].long().bincount()[i]`. -/
def catCount (rows : List (List ℚ)) (d i : ℕ) : ℕ :=
  rows.countP fun r => decide (tlong (r.getD d 0) = (i : ℤ))

/-- `p_D[d][i]`: empirical probability of category `i` in column `d`. -/
noncomputable def pD (rows : List (List ℚ)) (d i : ℕ) : ℝ :=
  (catCount rows d i : ℝ) / (rows.length : ℝ)

/-- `data[:, c][data[:, d] == i]` (the float equality test of the source). -/
def condSlice (rows : List (List ℚ)) (c d i : ℕ) : List ℚ :=
  (rows.filter fun r => decide (r.getD d 0 = (i : ℚ))).map fun r => r.getD c 0

/-- The finite value of `gaussian_entropy(x)`,
`0.5 * (log(2 * pi * var(x) + 1e-4) + 1)`. -/
noncomputable def gaussEntropyVal (xs : List ℚ) : ℝ :=
  (1 / 2) * (Real.log (2 * Real.pi * (varQ xs : ℝ) + 1 / 10000) + 1)

/-- `gaussian_entropy` is a finite float iff its argument is nonempty:
`torch.var` of an empty slice is `NaN` (and `var ≥ 0` makes the
`ε`-shifted log argument positive otherwise). -/
noncomputable def gaussEntropy (xs : List ℚ) : Option ℝ :=
  if xs.isEmpty then none else some (gaussEntropyVal xs)

/-- The cross term `I(C, D) = H(C) - Σ_i H(C | D = i) * p_D[i]` is finite
iff the whole column and every conditional slice over
`range(num_categories[d])` are nonempty; an empty slice gives
`H = NaN` and `NaN * p` is `NaN` even for `p = 0`. -/
def crossDefined (rows : List (List ℚ)) (c d : ℕ) : Bool :=
  !(colQ rows c).isEmpty &&
    (List.range (catColK rows d)).all fun i => !(condSlice rows c d i).isEmpty

/-- `I(C, D) = H(C) - H(C | D)` for a continuous column `c` and a discrete
column `d`; `none` models a `NaN` result. -/
noncomputable def crossMI (rows : List (List ℚ)) (c d : ℕ) : Option ℝ :=
  if crossDefined rows c d then
    some (gaussEntropyVal (colQ rows c) -
      ∑ i ∈ Finset.range (catColK rows d), pD rows d i * gaussEntropyVal (condSlice rows c d i))
  else none

/-- One entry of `_heterogeneous_mutual_info`.  The matrix starts as
zeros; the continuous block is filled via `corrcoef` (with the
correlation diagonal zeroed) when more than one continuous column
exists, the discrete block via `_categorical_mutual_info` on the
discrete sub-matrix when more than one discrete column exists, the
mixed entries via `crossMI` (assigned symmetrically), and
`fill_diagonal_(0)` runs last. -/
noncomputable def hetMIentry (rows : List (List ℚ)) (mask : List Bool) (i j : ℕ) : Option ℝ :=
  if i = j then some 0
  else
    match mask.getD i false, mask.getD j false with
    | false, false =>
        if 1 < (contIdx mask).length then gaussMIentry rows i j else some 0
    | true, true =>
        if 1 < (discIdx mask).length then
          some (catMIentry (longRows (subCols rows (discIdx mask)))
            (inferK (longRows (subCols rows (discIdx mask)))) (1 / 100)
            (posIn (discIdx mask) i) (posIn (discIdx mask) j))
        else some 0
    | false, true => crossMI rows i j
    | true, false => crossMI rows j i

/-! ## Chow-Liu orchestrator (`ChowLiuTree`, lines 46-62) -/

/-- One element of a per-column `input_type` list: the source reads
`input_layers['name']`. -/
structure InputDescriptor where
  name : String

/-- The `input_type` argument: a single tag or a per-column list. -/
inductive InputTypeArg where
  | single : String → InputTypeArg
  | perColumn : List InputDescriptor → InputTypeArg

/-- The failure conditions of the orchestrator: the two `assert`
statements, the `ValueError` and the `NotImplementedError`. -/
inductive CLTError where
  | dataNotMatrix
  | rootOutOfRange
  | numBinsWithoutCategories
  | unsupportedInputType
deriving DecidableEq

/-- The `data` argument: its number of tensor dimensions together with its
rows (meaningful when `ndim = 2`). -/
structure DataArg where
  ndim : ℕ
  rows : List (List ℚ)

/-- `data.size(-1)` for a matrix: the feature count. -/
def nFeatures (d : DataArg) : ℕ := (d.rows.getD 0 []).length

/-- The per-column boolean categorical mask built by the orchestrator:
`[input_layers['name'] == "categorical" for input_layers in input_type]`. -/
def maskOf (l : List InputDescriptor) : List Bool :=
  l.map fun d => d.name == "categorical"

/-- `torch.div(data, width, rounding_mode="floor")` with the integer bin
width `num_categories // num_bins`. -/
def rescaleBinQ (width : ℕ) (rows : List (List ℚ)) : List (List ℚ) :=
  rows.map (List.map fun q => ((⌊q / (width : ℚ)⌋ : ℤ) : ℚ))

/-- The root assert `root is None or -1 < root < data.size(-1)`. -/
def rootOk (root : Option ℤ) (nf : ℕ) : Bool :=
  match root with
  | none => true
  | some r => decide (-1 < r ∧ r < (nf : ℤ))

/-- The number of distinct codes observed in a data matrix. -/
def distinctCodes (rows : List (List ℚ)) : ℕ := rows.flatten.toFinset.card

/-- Lines 46-62 of `ChowLiuTree`: validation followed by dispatch to the
matching mutual-information estimator.  The value returned is the
`mutual_info` matrix as a function of the two feature indices (the
subsequent spanning-tree extraction is embedded separately by
`mstBuilderTree`). -/
noncomputable def ChowLiuTreeMI (data : DataArg) (input_type : InputTypeArg)
    (root : Option ℤ) (chunk_size : Option ℕ) (num_categories : Option ℕ)
    (num_bins : Option ℕ) : Except CLTError (ℕ → ℕ → Option ℝ) :=
  if data.ndim ≠ 2 then .error .dataNotMatrix
  else if !(rootOk root (nFeatures data)) then .error .rootOutOfRange
  else
    match input_type with
    | .perColumn l => .ok fun i j => hetMIentry data.rows (maskOf l) i j
    | .single tag =>
        if tag = "categorical" then
          match num_bins with
          | some nb =>
              match num_categories with
              | none => .error .numBinsWithoutCategories
              | some nc =>
                  let d := longRows (rescaleBinQ (nc / nb) data.rows)
                  .ok fun i j =>
                    some (catMIentryC (chunk_size.getD d.length) d nc (1 / 100) i j)
          | none =>
              let d := longRows data.rows
              .ok fun i j =>
                some (catMIentryC (chunk_size.getD d.length) d
                  (num_categories.getD (inferK d)) (1 / 100) i j)
        else if tag = "gaussian" then
          .ok fun i j => gaussMIentry data.rows i j
        else .error .unsupportedInputType

/-- Whether the orchestrator succeeded (raised no exception). -/
def cltOk (e : Except CLTError (ℕ → ℕ → Option ℝ)) : Bool :=
  match e with
  | .ok _ => true
  | .error _ => false

/-! ## Spanning trees and the tree builder (`_maximum_spanning_tree`)

An undirected graph on `Fin n` is a finite set of ordered pairs
`(i, j)` with `i < j` (one record per undirected edge, as in the
upper-triangular sparse matrix scipy returns). -/

variable {n : ℕ}

/-- The undirected adjacency relation of an edge set. -/
def hasEdge (T : Finset (Fin n × Fin n)) (u v : Fin n) : Prop :=
  (u, v) ∈ T ∨ (v, u) ∈ T

instance (T : Finset (Fin n × Fin n)) (u v : Fin n) : Decidable (hasEdge T u v) := by
  unfold hasEdge; infer_instance

/-- One breadth-first expansion step: a set of vertices together with all
their neighbours. -/
def expand (T : Finset (Fin n × Fin n)) (S : Finset (Fin n)) : Finset (Fin n) :=
  S ∪ Finset.univ.filter fun v => ∃ u ∈ S, hasEdge T u v

/-- Vertices at breadth-first distance at most `k` from `r`. -/
def layer (T : Finset (Fin n × Fin n)) (r : Fin n) (k : ℕ) : Finset (Fin n) :=
  (expand T)^[k] {r}

/-- A spanning tree of the complete graph on `n` vertices: well-formed
upper-triangular edges, exactly `n - 1` of them, and connected (every
vertex is reached from every vertex within `n` expansion steps). -/
def IsSpanningTree (n : ℕ) (T : Finset (Fin n × Fin n)) : Prop :=
  (∀ e ∈ T, e.1 < e.2) ∧ T.card + 1 = n ∧ ∀ r v : Fin n, v ∈ layer T r n

instance (T : Finset (Fin n × Fin n)) : Decidable (IsSpanningTree n T) := by
  unfold IsSpanningTree; infer_instance

/-- Total cost of an edge set under the negated shifted weights
`-(adj_matrix + 1.0)` handed to `sp.csgraph.minimum_spanning_tree`. -/
def costOf (W : Fin n → Fin n → ℚ) (T : Finset (Fin n × Fin n)) : ℚ :=
  ∑ e ∈ T, -(W e.1 e.2 + 1)

/-- Total mutual-information weight of an edge set. -/
def weightOf (W : Fin n → Fin n → ℚ) (T : Finset (Fin n × Fin n)) : ℚ :=
  ∑ e ∈ T, W e.1 e.2

/-- The contract of `sp.csgraph.minimum_spanning_tree` on the cost matrix
`-(W + 1)`: a spanning tree of minimum total cost. -/
def IsMinCostTree (W : Fin n → Fin n → ℚ) (T : Finset (Fin n × Fin n)) : Prop :=
  IsSpanningTree n T ∧ ∀ T', IsSpanningTree n T' → costOf W T ≤ costOf W T'

/-! ### Breadth-first predecessors (`sp.csgraph.breadth_first_order`) -/

/-- Discovery time of `v` in the breadth-first expansion from `r`: the
least `k` with `v ∈ layer T r k`, computed (using monotonicity of the
layers) as the number of layers not yet containing `v`;
`n + 1` means unreachable. -/
def dtime (T : Finset (Fin n × Fin n)) (r v : Fin n) : ℕ :=
  (List.range (n + 1)).countP fun k => decide (v ∉ layer T r k)

/-- Breadth-first predecessor of `v` in the traversal from `r`: the
first vertex of the previous layer adjacent to `v` (`none` for the
start vertex and for unreachable vertices, scipy's `-9999`). -/
def parent (T : Finset (Fin n × Fin n)) (r v : Fin n) : Option (Fin n) :=
  if v = r then none
  else if 0 < dtime T r v ∧ dtime T r v ≤ n then
    (List.finRange n).find? fun u =>
      decide (u ∈ layer T r (dtime T r v - 1) ∧ hasEdge T u v)
  else none

/-- Follow predecessor links `k` times (staying put once no predecessor
exists). -/
def climb (T : Finset (Fin n × Fin n)) (r : Fin n) : ℕ → Fin n → Fin n
  | 0, v => v
  | k + 1, v =>
      match parent T r v with
      | some u => climb T r k u
      | none => v

/-- The predecessor array returned by the tree builder: breadth-first
predecessors with scipy's `-9999` for vertices without one, and the
explicit `tree[root] = -1` overwrite. -/
def bfsTree (T : Finset (Fin n × Fin n)) (r : Fin n) : Fin n → ℤ :=
  fun v =>
    if v = r then -1
    else
      match parent T r v with
      | some u => (u : ℤ)
      | none => -9999

/-! ### Weighted distances (`sp.csgraph.dijkstra` on `abs(mst)`) -/

/-- One Bellman-Ford relaxation round over the edge set `T` with edge
costs `C`. -/
def relaxW {α : Type} [LinearOrder α] [Add α] (C : Fin n → Fin n → α)
    (T : Finset (Fin n × Fin n)) (d : Fin n → WithTop α) : Fin n → WithTop α :=
  fun v =>
    min (d v)
      (Finset.univ.inf fun u => if hasEdge T u v then d u + (C u v : WithTop α) else ⊤)

/-- Shortest-path distance from `u`, embedding `sp.csgraph.dijkstra`:
on a graph with at most `n` vertices, `n` relaxation rounds reach the
exact shortest-path distances. -/
def bfDist {α : Type} [LinearOrder α] [Add α] [Zero α] (C : Fin n → Fin n → α)
    (T : Finset (Fin n × Fin n)) (u : Fin n) : Fin n → WithTop α :=
  (relaxW C T)^[n] fun v => if v = u then ((0 : α) : WithTop α) else ⊤

/-- `np.max(dist_from_all_nodes, axis=1)`: the largest distance from `u`
to any vertex. -/
def eccW {α : Type} [LinearOrder α] [Add α] [Zero α] (C : Fin n → Fin n → α)
    (T : Finset (Fin n × Fin n)) (u : Fin n) : WithTop α :=
  ((List.finRange n).map (bfDist C T u)).foldl max (bfDist C T u u)

/-- The weights of `abs(mst)`: `|-(W + 1)| = W + 1` on tree edges. -/
def plus1 (W : Fin n → Fin n → ℚ) : Fin n → Fin n → ℚ := fun i j => W i j + 1

/-- `root = np.argmin(np.max(dist_from_all_nodes, axis=1))`: the first
vertex with least weighted eccentricity (`np.argmin` keeps the first
minimiser on ties, as does `List.argmin`). -/
def autoRoot (hn : 0 < n) (W : Fin n → Fin n → ℚ) (T : Finset (Fin n × Fin n)) : Fin n :=
  ((List.finRange n).argmin (eccW (plus1 W) T)).getD ⟨0, hn⟩

/-- The root used by the tree builder: the forced one when given, else
the automatically selected one. -/
def mstRoot (W : Fin n → Fin n → ℚ) (T : Finset (Fin n × Fin n))
    (ro : Option (Fin n)) (hn : 0 < n) : Fin n :=
  ro.getD (autoRoot hn W T)

/-- The predecessor array returned by `_maximum_spanning_tree`, given the
spanning tree `T` extracted by the trusted MST routine. -/
def mstBuilderTree (W : Fin n → Fin n → ℚ) (T : Finset (Fin n × Fin n))
    (ro : Option (Fin n)) (hn : 0 < n) : Fin n → ℤ :=
  bfsTree T (mstRoot W T ro hn)

/-- Unweighted (hop-count) eccentricity of `u` in the graph `T`: the
largest breadth-first distance to any vertex. -/
def hopEcc (T : Finset (Fin n × Fin n)) (u : Fin n) : ℕ :=
  Finset.univ.sup fun v => dtime T u v

/-! ## Concrete instances -/

/-- An integer table of mutual-information weights on 5 variables:
the path `0-1-2-3-4` carries weights `99, 5, 5, 5`, all other pairs `0`. -/
def intW5row : List (List ℤ) :=
  [[0, 99, 0, 0, 0], [99, 0, 5, 0, 0], [0, 5, 0, 5, 0], [0, 0, 5, 0, 5], [0, 0, 0, 5, 0]]

/-- The table as an integer matrix. -/
def intW5 (i j : Fin 5) : ℤ := (intW5row.getD i []).getD j 0

/-- The table as a rational MI matrix (the claims' quantification domain). -/
def W5 (i j : Fin 5) : ℚ := (intW5 i j : ℚ)

/-- The path `0-1-2-3-4` as an edge set. -/
def path5 : Finset (Fin 5 × Fin 5) := {(0, 1), (1, 2), (2, 3), (3, 4)}

/-- The star centred at `0`, another spanning tree on 5 vertices. -/
def star5 : Finset (Fin 5 × Fin 5) := {(0, 1), (0, 2), (0, 3), (0, 4)}

/-- A one-column categorical data matrix holding each code `0..9` once. -/
def rows10 : List (List ℚ) := [[0], [1], [2], [3], [4], [5], [6], [7], [8], [9]]

/-- Row validity for one column: value is a code below `K`. -/
def colValid (data : List (List ℤ)) (i : ℕ) (K : ℕ) : Prop :=
  ∀ r ∈ data, 0 ≤ r.getD i 0 ∧ r.getD i 0 < (K : ℤ)

/-- The cast `WithTop ℤ → WithTop ℚ`, used to transfer concrete weighted
distance computations from `ℤ` (kernel-computable) to the `ℚ` weights of
the claims. -/
def phiQ : WithTop ℤ → WithTop ℚ := WithTop.map fun z : ℤ => (z : ℚ)

/-! ## Chunking is count-preserving (towards C5) -/

lemma chunksGo_join {β : Type} (cs : ℕ) (hcs : 0 < cs) :
    ∀ (fuel : ℕ) (l : List β), l.length ≤ fuel → (chunksGo cs fuel l).flatten = l := by
  intro fuel
  induction fuel with
  | zero =>
      intro l hl
      rw [List.length_eq_zero.mp (Nat.le_zero.mp hl)]
      rfl
  | succ fuel ih =>
      intro l hl
      match l with
      | [] => rfl
      | a :: l' =>
          have hdrop : ((a :: l').drop cs).length ≤ fuel := by
            have := List.length_drop cs (a :: l')
            have := hl
            simp only [List.length_cons] at *
            omega
          calc (chunksGo cs (fuel + 1) (a :: l')).flatten
              = (a :: l').take cs ++ (chunksGo cs fuel ((a :: l').drop cs)).flatten := by
                simp only [chunksGo, List.flatten_cons]
            _ = (a :: l').take cs ++ (a :: l').drop cs := by rw [ih _ hdrop]
            _ = a :: l' := List.take_append_drop cs (a :: l')

lemma chunksOf_join {β : Type} (cs : ℕ) (hcs : 0 < cs) (l : List β) :
    (chunksOf cs l).flatten = l :=
  chunksGo_join cs hcs l.length l le_rfl

lemma jointCountC_eq_jointCount (cs : ℕ) (hcs : 0 < cs) (data : List (List ℤ))
    (i j a b : ℕ) : jointCountC cs data i j a b = jointCount data i j a b := by
  unfold jointCountC jointCount
  rw [← List.countP_flatten, chunksOf_join cs hcs]

/-- **C5.** Chunked categorical MI computation is independent of the chunk
size: for any two positive chunk sizes (in particular `n_samples` and `1`)
the resulting matrices agree entry by entry.  Chunking only splits the
accumulation of the joint-count tensor, and the counts of the chunks sum
to the counts of the whole data. -/
theorem c5_chunk_invariance (data : List (List ℤ)) (K : ℕ) (α : ℝ)
    (cs₁ cs₂ : ℕ) (h1 : 0 < cs₁) (h2 : 0 < cs₂) (i j : ℕ) :
    catMIentryC cs₁ data K α i j = catMIentryC cs₂ data K α i j := by
  unfold catMIentryC jointP margP margCountC
  simp only [jointCountC_eq_jointCount cs₁ h1, jointCountC_eq_jointCount cs₂ h2]

/-- Witness for C5 at a concrete input: chunk sizes `3` and `1` on a
4-sample matrix. -/
theorem c5_witness :
    catMIentryC 3 [[0, 1], [1, 0], [1, 1], [0, 0]] 2 (1 / 100) 0 1 =
      catMIentryC 1 [[0, 1], [1, 0], [1, 1], [0, 0]] 2 (1 / 100) 0 1 :=
  c5_chunk_invariance [[0, 1], [1, 0], [1, 1], [0, 0]] 2 (1 / 100) 3 1
    (by decide) (by decide) 0 1

/-! ## C8: bin rescaling -/

lemma floor_natCast_div (m W : ℕ) (hW : 0 < W) :
    ⌊((m : ℚ)) / ((W : ℚ))⌋ = ((m / W : ℕ) : ℤ) := by
  have hWQ : (0 : ℚ) < (W : ℚ) := by exact_mod_cast hW
  rw [Int.floor_eq_iff]
  constructor
  · rw [le_div_iff₀ hWQ]
    have : (m / W) * W ≤ m := Nat.div_mul_le_self m W
    exact_mod_cast this
  · rw [div_lt_iff₀ hWQ]
    have h1 : m % W < W := Nat.mod_lt m hW
    have h2 : W * (m / W) + m % W = m := Nat.div_add_mod m W
    have h3 : m < (m / W + 1) * W := by
      calc m = W * (m / W) + m % W := h2.symm
        _ < W * (m / W) + W := by omega
        _ = (m / W + 1) * W := by ring
    push_cast
    exact_mod_cast h3

/-- **C8 (amended).** After the orchestrator's floor-division rescale with
bin width `num_categories / num_bins`, the number of distinct observed
codes is at most `num_bins`, provided `num_bins` divides
`num_categories`; without divisibility the bound can fail (see the
counterexample). -/
theorem c8_rescale_bound (rows : List (List ℚ)) (nc nb : ℕ)
    (hcodes : ∀ q ∈ rows.flatten, ∃ m : ℕ, m < nc ∧ q = (m : ℚ))
    (hlt : nb < nc) (hdvd : nb ∣ nc) :
    distinctCodes (rescaleBinQ (nc / nb) rows) ≤ nb := by
  have hnb : 0 < nb := by
    rcases Nat.eq_zero_or_pos nb with h | h
    · subst h
      rcases hdvd with ⟨t, ht⟩
      omega
    · exact h
  have hW : 0 < nc / nb := Nat.div_pos (Nat.le_of_lt hlt) hnb
  have hsub : (rescaleBinQ (nc / nb) rows).flatten.toFinset ⊆
      (Finset.range nb).image fun k : ℕ => (k : ℚ) := by
    intro q hq
    rw [List.mem_toFinset] at hq
    unfold rescaleBinQ at hq
    rw [← List.map_flatten, List.mem_map] at hq
    obtain ⟨q₀, hq₀, rfl⟩ := hq
    obtain ⟨m, hm, rfl⟩ := hcodes q₀ hq₀
    rw [floor_natCast_div m (nc / nb) hW]
    have hmW : m / (nc / nb) < nb := by
      rw [Nat.div_lt_iff_lt_mul hW]
      calc m < nc := hm
        _ ≤ nb * (nc / nb) := by
            rcases hdvd with ⟨t, ht⟩
            subst ht
            rw [Nat.mul_div_cancel_left t hnb]
        _ = nb * (nc / nb) := rfl
    rw [Finset.mem_image]
    exact ⟨m / (nc / nb), Finset.mem_range.mpr hmW, by norm_cast⟩
  calc distinctCodes (rescaleBinQ (nc / nb) rows)
      ≤ ((Finset.range nb).image fun k : ℕ => (k : ℚ)).card :=
        Finset.card_le_card hsub
    _ ≤ (Finset.range nb).card := Finset.card_image_le
    _ = nb := Finset.card_range nb

/-- **C8 counterexample.** With `num_categories = 10` and `num_bins = 3`
(valid codes `0..9`, `num_bins < num_categories`), the rescaled data
holds `4 > 3` distinct codes: the claimed bound `≤ num_bins` fails when
`num_bins` does not divide `num_categories`. -/
theorem c8_counterexample :
    (∀ q ∈ rows10.flatten, ∃ m : ℕ, m < 10 ∧ q = (m : ℚ)) ∧ 3 < 10 ∧
      ¬ (distinctCodes (rescaleBinQ (10 / 3) rows10) ≤ 3) := by
  refine ⟨?_, by norm_num, ?_⟩
  · intro q hq
    fin_cases hq
    exacts [⟨0, by norm_num⟩, ⟨1, by norm_num⟩, ⟨2, by norm_num⟩, ⟨3, by norm_num⟩,
      ⟨4, by norm_num⟩, ⟨5, by norm_num⟩, ⟨6, by norm_num⟩, ⟨7, by norm_num⟩,
      ⟨8, by norm_num⟩, ⟨9, by norm_num⟩]
  · have h1 : rescaleBinQ (10 / 3) rows10 =
        [[0], [0], [0], [1], [1], [1], [2], [2], [2], [3]] := by
      norm_num [rescaleBinQ, rows10]
    rw [h1]
    decide

/-- Witness for C8 at a concrete input: `num_categories = 10`,
`num_bins = 5` (a divisor), codes `0..9`. -/
theorem c8_witness : distinctCodes (rescaleBinQ (10 / 5) rows10) ≤ 5 :=
  c8_rescale_bound rows10 10 5
    (by
      intro q hq
      fin_cases hq
      exacts [⟨0, by norm_num⟩, ⟨1, by norm_num⟩, ⟨2, by norm_num⟩, ⟨3, by norm_num⟩,
        ⟨4, by norm_num⟩, ⟨5, by norm_num⟩, ⟨6, by norm_num⟩, ⟨7, by norm_num⟩,
        ⟨8, by norm_num⟩, ⟨9, by norm_num⟩])
    (by norm_num) (by norm_num)

/-! ## C9: per-column dispatch -/

/-- **C9.** When `input_type` is a per-column list of descriptors, the
orchestrator (after its validation) builds the boolean categorical mask
from the descriptors — a column is marked categorical exactly when its
descriptor's name is `"categorical"` — and returns the heterogeneous
estimator's matrix over all features. -/
theorem c9_per_column_dispatch (data : DataArg) (l : List InputDescriptor)
    (root : Option ℤ) (cs nc nb : Option ℕ)
    (hdim : data.ndim = 2) (hroot : rootOk root (nFeatures data) = true) :
    ChowLiuTreeMI data (.perColumn l) root cs nc nb =
      .ok (fun i j => hetMIentry data.rows (maskOf l) i j) ∧
    ∀ k, k < l.length →
      ((maskOf l).getD k false = true ↔ (l.getD k ⟨""⟩).name = "categorical") := by
  constructor
  · simp [ChowLiuTreeMI, hdim, hroot]
  · intro k hk
    unfold maskOf
    rw [List.getD_eq_getElem _ _ (by simpa using hk), List.getElem_map,
      List.getD_eq_getElem _ _ hk]
    exact beq_iff_eq

/-- Witness for C9 at a concrete input: a gaussian column and a
categorical column. -/
theorem c9_witness :
    ChowLiuTreeMI ⟨2, [[0, 0], [1, 2]]⟩
        (.perColumn [⟨"gaussian"⟩, ⟨"categorical"⟩]) none none none none =
      .ok (fun i j =>
        hetMIentry [[0, 0], [1, 2]] (maskOf [⟨"gaussian"⟩, ⟨"categorical"⟩]) i j) :=
  (c9_per_column_dispatch ⟨2, [[0, 0], [1, 2]]⟩ [⟨"gaussian"⟩, ⟨"categorical"⟩]
    none none none none rfl rfl).1

/-! ## C10: validation behaviour of the orchestrator -/

/-- **C10 (amended).** The two `assert` checks (data dimensionality, root
range) fail on every path before any estimator dispatch, and the
`num_bins`-without-`num_categories` check fails on the categorical path
before the categorical estimator is invoked; but on the gaussian path
(and likewise the per-column path) `num_bins` without `num_categories`
is silently ignored and no failure occurs. -/
theorem c10_validation_fail_fast :
    (∀ (data : DataArg) (it : InputTypeArg) (root : Option ℤ) (cs nc nb : Option ℕ),
        data.ndim ≠ 2 →
        ChowLiuTreeMI data it root cs nc nb = .error .dataNotMatrix) ∧
    (∀ (data : DataArg) (it : InputTypeArg) (root : Option ℤ) (cs nc nb : Option ℕ),
        data.ndim = 2 → rootOk root (nFeatures data) = false →
        ChowLiuTreeMI data it root cs nc nb = .error .rootOutOfRange) ∧
    (∀ (data : DataArg) (root : Option ℤ) (cs : Option ℕ) (nb : ℕ),
        data.ndim = 2 → rootOk root (nFeatures data) = true →
        ChowLiuTreeMI data (.single "categorical") root cs none (some nb) =
          .error .numBinsWithoutCategories) ∧
    (∀ (data : DataArg) (root : Option ℤ) (cs nc nb : Option ℕ),
        data.ndim = 2 → rootOk root (nFeatures data) = true →
        ChowLiuTreeMI data (.single "gaussian") root cs nc nb =
          .ok fun i j => gaussMIentry data.rows i j) := by
  refine ⟨?_, ?_, ?_, ?_⟩
  · intro data it root cs nc nb h
    simp [ChowLiuTreeMI, h]
  · intro data it root cs nc nb h hroot
    simp [ChowLiuTreeMI, h, hroot]
  · intro data root cs nb h hroot
    simp [ChowLiuTreeMI, h, hroot]
  · intro data root cs nc nb h hroot
    simp [ChowLiuTreeMI, h, hroot]

/-- **C10 counterexample.** `num_bins` given without `num_categories` on
the gaussian path raises nothing: the orchestrator succeeds, refuting
"every invalid-argument condition causes an immediate failure". -/
theorem c10_counterexample :
    cltOk (ChowLiuTreeMI ⟨2, [[0, 0], [1, 1]]⟩ (.single "gaussian")
      none none none (some 2)) = true := rfl

/-! ## Symmetry and diagonal of the three estimators (towards C1, C2) -/

lemma jointCount_symm (data : List (List ℤ)) (i j a b : ℕ) :
    jointCount data i j a b = jointCount data j i b a := by
  unfold jointCount
  exact List.countP_congr fun r _ => by simp [and_comm]

lemma jointCountC_symm (cs : ℕ) (data : List (List ℤ)) (i j a b : ℕ) :
    jointCountC cs data i j a b = jointCountC cs data j i b a := by
  unfold jointCountC
  simp only [jointCount_symm _ i j]

lemma catMIentryC_symm (cs : ℕ) (data : List (List ℤ)) (K : ℕ) (α : ℝ) (i j : ℕ) :
    catMIentryC cs data K α i j = catMIentryC cs data K α j i := by
  unfold catMIentryC
  by_cases hij : i = j
  · subst hij
    rfl
  · rw [if_neg hij, if_neg (Ne.symm hij), Finset.sum_comm]
    refine Finset.sum_congr rfl fun b _ => Finset.sum_congr rfl fun a _ => ?_
    unfold jointP
    rw [jointCountC_symm cs data i j a b, mul_comm (margP cs data K α i a)]

lemma catMIentryC_diag (cs : ℕ) (data : List (List ℤ)) (K : ℕ) (α : ℝ) (i : ℕ) :
    catMIentryC cs data K α i i = 0 := if_pos rfl

lemma colQ_length (rows : List (List ℚ)) (i : ℕ) : (colQ rows i).length = rows.length := by
  simp [colQ]

lemma catMIentry_symm (data : List (List ℤ)) (K : ℕ) (α : ℝ) (i j : ℕ) :
    catMIentry data K α i j = catMIentry data K α j i :=
  catMIentryC_symm data.length data K α i j

lemma covQ_symm_of_length (x y : List ℚ) (h : x.length = y.length) :
    covQ x y = covQ y x := by
  unfold covQ
  rw [List.zipWith_comm, h]
  have he : (fun b a => (a - meanQ x) * (b - meanQ y)) =
      fun a b => (a - meanQ y) * (b - meanQ x) := by
    funext u v
    ring
  rw [he]

lemma covQ_self (x : List ℚ) : covQ x x = varQ x := by
  unfold covQ varQ
  rw [List.zipWith_same]
  have he : (fun a => (a - meanQ x) * (a - meanQ x)) =
      fun a : ℚ => (a - meanQ x) ^ 2 := by
    funext u
    ring
  rw [he]

lemma rhoSq_symm (rows : List (List ℚ)) (i j : ℕ) : rhoSq rows i j = rhoSq rows j i := by
  unfold rhoSq
  rw [covQ_symm_of_length _ _ (by rw [colQ_length, colQ_length]),
    mul_comm (varQ (colQ rows i))]

lemma gaussDefined_symm (rows : List (List ℚ)) (i j : ℕ) :
    gaussDefined rows i j = gaussDefined rows j i := by
  unfold gaussDefined
  rw [rhoSq_symm]
  rw [Bool.and_comm (decide (varQ (colQ rows i) ≠ 0))]

lemma gaussMIentry_symm (rows : List (List ℚ)) (i j : ℕ) :
    gaussMIentry rows i j = gaussMIentry rows j i := by
  unfold gaussMIentry
  rw [gaussDefined_symm, rhoSq_symm]

lemma rhoSq_diag (rows : List (List ℚ)) (i : ℕ) (hv : varQ (colQ rows i) ≠ 0) :
    rhoSq rows i i = 1 := by
  unfold rhoSq
  rw [covQ_self, sq]
  exact div_self (mul_ne_zero hv hv)

/-- On the single-tag gaussian path the diagonal entry is never a finite
number: `corrcoef(i,i) = 1` makes `-0.5 * log(1 - 1) = +inf` (or `NaN`
when the column variance is zero). -/
lemma gaussMIentry_diag (rows : List (List ℚ)) (i : ℕ) :
    gaussMIentry rows i i = none := by
  unfold gaussMIentry
  rw [if_neg]
  unfold gaussDefined
  by_cases hv : varQ (colQ rows i) = 0
  · simp [hv]
  · simp [hv, rhoSq_diag rows i hv]

lemma hetMIentry_diag (rows : List (List ℚ)) (mask : List Bool) (i : ℕ) :
    hetMIentry rows mask i i = some 0 := if_pos rfl

lemma hetMIentry_symm (rows : List (List ℚ)) (mask : List Bool) (i j : ℕ) :
    hetMIentry rows mask i j = hetMIentry rows mask j i := by
  by_cases hij : i = j
  · subst hij
    rfl
  · unfold hetMIentry
    rw [if_neg hij, if_neg (Ne.symm hij)]
    cases hi : mask.getD i false <;> cases hj : mask.getD j false
    · rw [gaussMIentry_symm]
    · rfl
    · rfl
    · rw [catMIentry_symm]

/-- **C1 (amended).** On all three estimator paths the MI matrix is
symmetric; on the categorical path (any chunk size) and on the
heterogeneous path the diagonal is exactly zero, while on the single-tag
gaussian path the diagonal entries are not finite numbers (`+inf`/`NaN`,
modelled `none`) because that path never zeroes the diagonal of
`-0.5 * log(1 - corrcoef^2)`. -/
theorem c1_symmetry_and_diagonal :
    (∀ (cs : ℕ) (data : List (List ℤ)) (K : ℕ) (α : ℝ) (i j : ℕ),
        catMIentryC cs data K α i j = catMIentryC cs data K α j i ∧
        catMIentryC cs data K α i i = 0) ∧
    (∀ (rows : List (List ℚ)) (i j : ℕ),
        gaussMIentry rows i j = gaussMIentry rows j i ∧
        gaussMIentry rows i i = none) ∧
    (∀ (rows : List (List ℚ)) (mask : List Bool) (i j : ℕ),
        hetMIentry rows mask i j = hetMIentry rows mask j i ∧
        hetMIentry rows mask i i = some 0) :=
  ⟨fun cs data K α i j => ⟨catMIentryC_symm cs data K α i j, catMIentryC_diag cs data K α i⟩,
    fun rows i j => ⟨gaussMIentry_symm rows i j, gaussMIentry_diag rows i⟩,
    fun rows mask i j => ⟨hetMIentry_symm rows mask i j, hetMIentry_diag rows mask i⟩⟩

/-- **C1 counterexample.** On the gaussian path with data `[[0], [1]]`
(column variance `1/4 ≠ 0`), the diagonal entry `MI[0,0]` is not the
finite value `0`: it is `+inf` in the source (`none` in the embedding),
refuting the exact-zero diagonal on that path. -/
theorem c1_counterexample : gaussMIentry [[0], [1]] 0 0 ≠ some 0 := by
  rw [gaussMIentry_diag]
  exact fun h => Option.noConfusion h

/-! ## C2: the heterogeneous estimator propagates NaN -/

/-- **C2 (violated by the code).** On the finite, correctly-shaped input
with one continuous column `[0, 1]` and one categorical column `[0, 2]`
(category `1` occurs in zero samples), the heterogeneous estimator's
entry `MI[0, 1]` is not a finite number: `torch.var` of the empty
conditional slice is `NaN`, and `NaN * p` is `NaN` even for probability
mass `p = 0`, so the `NaN` reaches the returned matrix. -/
theorem c2_nan_on_empty_category :
    hetMIentry [[0, 0], [1, 2]] [false, true] 0 1 = none := by
  have hK : catColK [[0, 0], [1, 2]] 1 = 3 := by
    norm_num [catColK, colQ, tlong]
    rfl
  have hslice : condSlice [[0, 0], [1, 2]] 0 1 1 = [] := by
    norm_num [condSlice]
  have hcd : crossDefined [[0, 0], [1, 2]] 0 1 = false := by
    unfold crossDefined
    rw [hK]
    have : ¬ (List.range 3).all (fun i => !(condSlice [[0, 0], [1, 2]] 0 1 i).isEmpty) = true := by
      rw [List.all_eq_true]
      intro hall
      have h1 := hall 1 (by decide)
      rw [hslice] at h1
      exact absurd h1 (by decide)
    simp only [Bool.and_eq_false_iff]
    right
    exact Bool.eq_false_iff.mpr this
  show hetMIentry [[0, 0], [1, 2]] [false, true] 0 1 = none
  unfold hetMIentry
  rw [if_neg (by decide : ¬ (0 : ℕ) = 1)]
  show crossMI [[0, 0], [1, 2]] 0 1 = none
  unfold crossMI
  rw [hcd]
  rfl

/-- Sanity check that the `none` guards of the embedding are not
over-eager: on data whose categorical column has no empty category, the
cross term is a finite number. -/
lemma crossMI_isSome_no_empty_category :
    (crossMI [[0, 0], [1, 1]] 0 1).isSome = true := by
  have hK : catColK [[0, 0], [1, 1]] 1 = 2 := by
    norm_num [catColK, colQ, tlong]
    rfl
  have h0 : condSlice [[0, 0], [1, 1]] 0 1 0 = [0] := by
    norm_num [condSlice]
  have h1 : condSlice [[0, 0], [1, 1]] 0 1 1 = [1] := by
    norm_num [condSlice]
  have hcd : crossDefined [[0, 0], [1, 1]] 0 1 = true := by
    unfold crossDefined
    rw [hK]
    simp [colQ, h0, h1, List.range_succ]
  simp [crossMI, hcd]

/-- Sanity check for the gaussian entry: off the diagonal, with nonzero
variances and correlation strictly below one, the entry is a finite
number. -/
lemma gaussMIentry_isSome_offdiag :
    (gaussMIentry [[0, 0], [1, 0], [0, 1], [1, 1]] 0 1).isSome = true := by
  have hd : gaussDefined [[0, 0], [1, 0], [0, 1], [1, 1]] 0 1 = true := by
    norm_num [gaussDefined, rhoSq, covQ, varQ, colQ, meanQ]
  simp [gaussMIentry, hd]

/-! ## C6: non-negativity of categorical mutual information -/

/-- Splitting a count over the `K` possible values of a classifier `g`:
the classified counts sum back to the unclassified one. -/
lemma sum_countP_classify (l : List (List ℤ)) (p : List ℤ → Bool) (g : List ℤ → ℤ) (K : ℕ)
    (hg : ∀ r ∈ l, p r = true → ∃ b : ℕ, b < K ∧ g r = (b : ℤ)) :
    ∑ b ∈ Finset.range K, l.countP (fun r => p r && decide (g r = (b : ℤ))) = l.countP p := by
  induction l with
  | nil => simp
  | cons r l ih =>
      have hg' : ∀ r' ∈ l, p r' = true → ∃ b : ℕ, b < K ∧ g r' = (b : ℤ) :=
        fun r' hr' => hg r' (List.mem_cons_of_mem r hr')
      simp only [List.countP_cons]
      rw [Finset.sum_add_distrib, ih hg']
      congr 1
      by_cases hp : p r = true
      · obtain ⟨b₀, hb₀K, hb₀⟩ := hg r (List.mem_cons_self r l) hp
        have hterm : ∀ b ∈ Finset.range K,
            (if (p r && decide (g r = (b : ℤ))) = true then 1 else 0) =
              if b = b₀ then 1 else 0 := by
          intro b _
          rw [hp, Bool.true_and, hb₀]
          by_cases hbb : b = b₀
          · subst hbb
            simp
          · have hne : ((b₀ : ℤ)) ≠ ((b : ℤ)) := by exact_mod_cast Ne.symm hbb
            simp [hne, hbb]
        rw [Finset.sum_congr rfl hterm, Finset.sum_ite_eq' (Finset.range K) b₀ fun _ => 1]
        simp [hp, Finset.mem_range.mpr hb₀K]
      · have hpf : p r = false := Bool.eq_false_iff.mpr hp
        simp [hpf]

lemma jointCount_and_form (data : List (List ℤ)) (i j a b : ℕ) :
    jointCount data i j a b =
      data.countP fun r => decide (r.getD i 0 = (a : ℤ)) && decide (r.getD j 0 = (b : ℤ)) := by
  unfold jointCount
  exact List.countP_congr fun r _ => by simp

lemma jointCount_diag_form (data : List (List ℤ)) (i a : ℕ) :
    jointCount data i i a a = data.countP fun r => decide (r.getD i 0 = (a : ℤ)) := by
  unfold jointCount
  exact List.countP_congr fun r _ => by simp

lemma sum_jointCount_inner (data : List (List ℤ)) (i j K : ℕ)
    (hj : colValid data j K) (a : ℕ) :
    ∑ b ∈ Finset.range K, jointCount data i j a b = jointCount data i i a a := by
  have := sum_countP_classify data (fun r => decide (r.getD i 0 = (a : ℤ)))
    (fun r => r.getD j 0) K ?_
  · rw [jointCount_diag_form]
    rw [← this]
    exact Finset.sum_congr rfl fun b _ => jointCount_and_form data i j a b
  · intro r hr _
    obtain ⟨h0, hK⟩ := hj r hr
    refine ⟨(r.getD j 0).toNat, by omega, ?_⟩
    show r.getD j 0 = ((r.getD j 0).toNat : ℤ)
    omega

lemma sum_margCount (data : List (List ℤ)) (i K : ℕ) (hi : colValid data i K) :
    ∑ a ∈ Finset.range K, jointCount data i i a a = data.length := by
  have := sum_countP_classify data (fun _ => true) (fun r => r.getD i 0) K ?_
  · calc ∑ a ∈ Finset.range K, jointCount data i i a a
        = ∑ a ∈ Finset.range K,
            data.countP fun r => true && decide (r.getD i 0 = (a : ℤ)) := by
          refine Finset.sum_congr rfl fun a _ => ?_
          rw [jointCount_diag_form]
          exact List.countP_congr fun r _ => by simp
      _ = data.countP fun _ => true := this
      _ = data.length := congrFun List.countP_true data
  · intro r hr _
    obtain ⟨h0, hK⟩ := hi r hr
    refine ⟨(r.getD i 0).toNat, by omega, ?_⟩
    show r.getD i 0 = ((r.getD i 0).toNat : ℤ)
    omega

lemma sum_jointCount (data : List (List ℤ)) (i j K : ℕ)
    (hi : colValid data i K) (hj : colValid data j K) :
    ∑ a ∈ Finset.range K, ∑ b ∈ Finset.range K, jointCount data i j a b = data.length := by
  calc ∑ a ∈ Finset.range K, ∑ b ∈ Finset.range K, jointCount data i j a b
      = ∑ a ∈ Finset.range K, jointCount data i i a a :=
        Finset.sum_congr rfl fun a _ => sum_jointCount_inner data i j K hj a
    _ = data.length := sum_margCount data i K hi

/-- Gibbs' inequality: a KL-style sum of strictly positive distributions
is non-negative (via `log x ≤ x - 1`). -/
lemma gibbs_nonneg (K : ℕ) (p : ℕ → ℕ → ℝ) (q r' : ℕ → ℝ)
    (hp : ∀ a ∈ Finset.range K, ∀ b ∈ Finset.range K, 0 < p a b)
    (hq : ∀ a ∈ Finset.range K, 0 < q a) (hr : ∀ b ∈ Finset.range K, 0 < r' b)
    (hsp : ∑ a ∈ Finset.range K, ∑ b ∈ Finset.range K, p a b = 1)
    (hsq : ∑ a ∈ Finset.range K, q a = 1) (hsr : ∑ b ∈ Finset.range K, r' b = 1) :
    0 ≤ ∑ a ∈ Finset.range K, ∑ b ∈ Finset.range K,
      p a b * (Real.log (p a b) - Real.log (q a * r' b)) := by
  have key : ∀ a ∈ Finset.range K, ∀ b ∈ Finset.range K,
      p a b - q a * r' b ≤ p a b * (Real.log (p a b) - Real.log (q a * r' b)) := by
    intro a ha b hb
    have hpab := hp a ha b hb
    have hqr : 0 < q a * r' b := mul_pos (hq a ha) (hr b hb)
    have hlog := Real.log_le_sub_one_of_pos (div_pos hqr hpab)
    rw [Real.log_div (ne_of_gt hqr) (ne_of_gt hpab)] at hlog
    have h2 : p a b * (Real.log (q a * r' b) - Real.log (p a b)) ≤
        p a b * (q a * r' b / p a b - 1) :=
      mul_le_mul_of_nonneg_left hlog (le_of_lt hpab)
    have h3 : p a b * (q a * r' b / p a b - 1) = q a * r' b - p a b := by
      field_simp
    have h4 : p a b * (Real.log (p a b) - Real.log (q a * r' b)) =
        -(p a b * (Real.log (q a * r' b) - Real.log (p a b))) := by ring
    linarith
  calc (0 : ℝ)
      = (∑ a ∈ Finset.range K, ∑ b ∈ Finset.range K, p a b) -
          (∑ a ∈ Finset.range K, q a) * (∑ b ∈ Finset.range K, r' b) := by
        rw [hsp, hsq, hsr]; ring
    _ = ∑ a ∈ Finset.range K, ∑ b ∈ Finset.range K, (p a b - q a * r' b) := by
        rw [Finset.sum_mul_sum, ← Finset.sum_sub_distrib]
        exact Finset.sum_congr rfl fun a _ => (Finset.sum_sub_distrib).symm
    _ ≤ ∑ a ∈ Finset.range K, ∑ b ∈ Finset.range K,
          p a b * (Real.log (p a b) - Real.log (q a * r' b)) :=
        Finset.sum_le_sum fun a ha => Finset.sum_le_sum fun b hb => key a ha b hb

lemma denom_pos (data : List (List ℤ)) (K : ℕ) (α : ℝ) (hα : 0 < α) (hK : 0 < K) :
    0 < (data.length : ℝ) + K ^ 2 * α := by
  have h1 : (0 : ℝ) ≤ (data.length : ℝ) := Nat.cast_nonneg _
  have h2 : (0 : ℝ) < (K : ℝ) ^ 2 * α :=
    mul_pos (pow_pos (by exact_mod_cast hK) 2) hα
  linarith

lemma jointP_pos (cs : ℕ) (data : List (List ℤ)) (K : ℕ) (α : ℝ)
    (hα : 0 < α) (hK : 0 < K) (i j a b : ℕ) : 0 < jointP cs data K α i j a b := by
  unfold jointP
  apply div_pos _ (denom_pos data K α hα hK)
  have : (0 : ℝ) ≤ (jointCountC cs data i j a b : ℝ) := Nat.cast_nonneg _
  linarith

lemma margP_pos (cs : ℕ) (data : List (List ℤ)) (K : ℕ) (α : ℝ)
    (hα : 0 < α) (hK : 0 < K) (i a : ℕ) : 0 < margP cs data K α i a := by
  unfold margP
  apply div_pos _ (denom_pos data K α hα hK)
  have h1 : (0 : ℝ) ≤ (margCountC cs data i a : ℝ) := Nat.cast_nonneg _
  have h2 : (0 : ℝ) < (K : ℝ) * α := mul_pos (by exact_mod_cast hK) hα
  linarith

lemma sum_jointP_eq_one (cs : ℕ) (data : List (List ℤ)) (K : ℕ) (α : ℝ)
    (hcs : 0 < cs) (hα : 0 < α) (hK : 0 < K) (i j : ℕ)
    (hi : colValid data i K) (hj : colValid data j K) :
    ∑ a ∈ Finset.range K, ∑ b ∈ Finset.range K, jointP cs data K α i j a b = 1 := by
  have hD := denom_pos data K α hα hK
  unfold jointP
  simp only [jointCountC_eq_jointCount cs hcs]
  have hsum : ∑ a ∈ Finset.range K, ∑ b ∈ Finset.range K,
      ((jointCount data i j a b : ℝ) + α) = (data.length : ℝ) + K ^ 2 * α := by
    have hcast : ∑ a ∈ Finset.range K, ∑ b ∈ Finset.range K,
        (jointCount data i j a b : ℝ) = (data.length : ℝ) := by
      exact_mod_cast congrArg (Nat.cast (R := ℝ)) (sum_jointCount data i j K hi hj)
    calc ∑ a ∈ Finset.range K, ∑ b ∈ Finset.range K, ((jointCount data i j a b : ℝ) + α)
        = ∑ a ∈ Finset.range K,
            ((∑ b ∈ Finset.range K, (jointCount data i j a b : ℝ)) + K * α) := by
          refine Finset.sum_congr rfl fun a _ => ?_
          rw [Finset.sum_add_distrib, Finset.sum_const, Finset.card_range, nsmul_eq_mul]
      _ = (∑ a ∈ Finset.range K, ∑ b ∈ Finset.range K, (jointCount data i j a b : ℝ)) +
            K * (K * α) := by
          rw [Finset.sum_add_distrib, Finset.sum_const, Finset.card_range, nsmul_eq_mul]
      _ = (data.length : ℝ) + K ^ 2 * α := by rw [hcast]; ring
  calc ∑ a ∈ Finset.range K, ∑ b ∈ Finset.range K,
        ((jointCount data i j a b : ℝ) + α) / ((data.length : ℝ) + K ^ 2 * α)
      = (∑ a ∈ Finset.range K, ∑ b ∈ Finset.range K,
          ((jointCount data i j a b : ℝ) + α)) / ((data.length : ℝ) + K ^ 2 * α) := by
        rw [Finset.sum_div]
        exact Finset.sum_congr rfl fun a _ => (Finset.sum_div _ _ _).symm
    _ = 1 := by rw [hsum]; exact div_self (ne_of_gt hD)

lemma sum_margP_eq_one (cs : ℕ) (data : List (List ℤ)) (K : ℕ) (α : ℝ)
    (hcs : 0 < cs) (hα : 0 < α) (hK : 0 < K) (i : ℕ) (hi : colValid data i K) :
    ∑ a ∈ Finset.range K, margP cs data K α i a = 1 := by
  have hD := denom_pos data K α hα hK
  unfold margP margCountC
  simp only [jointCountC_eq_jointCount cs hcs]
  have hcast : ∑ a ∈ Finset.range K, (jointCount data i i a a : ℝ) = (data.length : ℝ) := by
    exact_mod_cast congrArg (Nat.cast (R := ℝ)) (sum_margCount data i K hi)
  have hsum : ∑ a ∈ Finset.range K, ((jointCount data i i a a : ℝ) + K * α) =
      (data.length : ℝ) + K ^ 2 * α := by
    rw [Finset.sum_add_distrib, Finset.sum_const, Finset.card_range, nsmul_eq_mul, hcast]
    ring
  calc ∑ a ∈ Finset.range K,
        ((jointCount data i i a a : ℝ) + K * α) / ((data.length : ℝ) + K ^ 2 * α)
      = (∑ a ∈ Finset.range K,
          ((jointCount data i i a a : ℝ) + K * α)) / ((data.length : ℝ) + K ^ 2 * α) :=
        (Finset.sum_div _ _ _).symm
    _ = 1 := by rw [hsum]; exact div_self (ne_of_gt hD)

/-- **C6.** Every entry of the smoothed categorical mutual-information
matrix is non-negative, for any chunk size, any smoothing constant
`α > 0` and any integer-coded data whose codes in the two columns lie
below the category count `K`: the entry is a KL divergence of strictly
positive distributions summing to one. -/
theorem c6_categorical_mi_nonneg (cs : ℕ) (data : List (List ℤ)) (K : ℕ) (α : ℝ)
    (hcs : 0 < cs) (hα : 0 < α) (hK : 0 < K) (i j : ℕ)
    (hi : colValid data i K) (hj : colValid data j K) :
    0 ≤ catMIentryC cs data K α i j := by
  by_cases hij : i = j
  · rw [hij, catMIentryC_diag]
  · unfold catMIentryC
    rw [if_neg hij]
    exact gibbs_nonneg K (fun a b => jointP cs data K α i j a b)
      (fun a => margP cs data K α i a) (fun b => margP cs data K α j b)
      (fun a _ b _ => jointP_pos cs data K α hα hK i j a b)
      (fun a _ => margP_pos cs data K α hα hK i a)
      (fun b _ => margP_pos cs data K α hα hK j b)
      (sum_jointP_eq_one cs data K α hcs hα hK i j hi hj)
      (sum_margP_eq_one cs data K α hcs hα hK i hi)
      (sum_margP_eq_one cs data K α hcs hα hK j hj)

/-- Witness for C6 at a concrete input: two binary columns over four
samples, `K = 2`, `α = 1/100`, chunk size `4`. -/
theorem c6_witness :
    0 ≤ catMIentryC 4 [[0, 1], [1, 0], [1, 1], [0, 0]] 2 (1 / 100) 0 1 :=
  c6_categorical_mi_nonneg 4 [[0, 1], [1, 0], [1, 1], [0, 0]] 2 (1 / 100)
    (by norm_num) (by norm_num) (by norm_num) 0 1
    (by intro r hr; fin_cases hr <;> constructor <;> decide)
    (by intro r hr; fin_cases hr <;> constructor <;> decide)

/-! ## C3: the negated-shifted MST is a maximum-weight spanning tree -/

lemma costOf_eq {n : ℕ} (W : Fin n → Fin n → ℚ) (T : Finset (Fin n × Fin n)) :
    costOf W T = -weightOf W T - T.card := by
  unfold costOf weightOf
  have h : ∀ e ∈ T, -(W e.1 e.2 + 1) = -W e.1 e.2 + (-1 : ℚ) := fun e _ => by ring
  rw [Finset.sum_congr rfl h, Finset.sum_add_distrib, Finset.sum_neg_distrib,
    Finset.sum_const, nsmul_eq_mul]
  ring

/-- **C3.** For a symmetric non-negative MI matrix, the costs `-(W + 1)`
are strictly negative, and any spanning tree minimising total cost under
them maximises total MI weight over all spanning trees (all spanning
trees have exactly `n - 1` edges, so the cost of a tree is the negated
weight shifted by the constant `n - 1`). -/
theorem c3_max_weight_tree {n : ℕ} (W : Fin n → Fin n → ℚ) (T : Finset (Fin n × Fin n))
    (hsym : ∀ i j, W i j = W j i) (hnn : ∀ i j, 0 ≤ W i j)
    (hmst : IsMinCostTree W T) :
    (∀ i j, -(W i j + 1) < 0) ∧ IsSpanningTree n T ∧
      ∀ T', IsSpanningTree n T' → weightOf W T' ≤ weightOf W T := by
  obtain ⟨hT, hmin⟩ := hmst
  refine ⟨fun i j => by have := hnn i j; linarith, hT, fun T' hT' => ?_⟩
  have h1 := hmin T' hT'
  rw [costOf_eq, costOf_eq] at h1
  have hc : (T.card : ℚ) = (T'.card : ℚ) := by
    have hT1 := hT.2.1
    have hT2 := hT'.2.1
    have : T.card = T'.card := by omega
    exact_mod_cast this
  linarith

/-! Certification that `path5` is the minimum-cost spanning tree of `W5`:
any 4-edge subset has weight at most `94 + 4*5 = 114`, attained by the
path. -/

lemma w5_decomp : ∀ e : Fin 5 × Fin 5, e.1 < e.2 →
    intW5 e.1 e.2 = (if e = ((0 : Fin 5), (1 : Fin 5)) then (94 : ℤ) else 0) +
      (if e ∈ path5 then (5 : ℤ) else 0) := by decide

lemma weightZ_le (T' : Finset (Fin 5 × Fin 5)) (hwf : ∀ e ∈ T', e.1 < e.2) :
    ∑ e ∈ T', intW5 e.1 e.2 ≤ 114 := by
  have h1 : (∑ e ∈ T', if e = ((0 : Fin 5), (1 : Fin 5)) then (94 : ℤ) else 0) ≤ 94 := by
    rw [Finset.sum_ite_eq' T' ((0 : Fin 5), (1 : Fin 5)) fun _ => (94 : ℤ)]
    split <;> norm_num
  have h2 : (∑ e ∈ T', if e ∈ path5 then (5 : ℤ) else 0) ≤ 20 := by
    rw [← Finset.sum_filter]
    have hsub : T'.filter (· ∈ path5) ⊆ path5 := fun e he => (Finset.mem_filter.mp he).2
    have hc : (T'.filter (· ∈ path5)).card ≤ 4 := by
      have := Finset.card_le_card hsub
      have hp : path5.card = 4 := by decide
      omega
    calc ∑ _e ∈ T'.filter (· ∈ path5), (5 : ℤ)
        = (T'.filter (· ∈ path5)).card • (5 : ℤ) := Finset.sum_const 5
      _ = ((T'.filter (· ∈ path5)).card : ℤ) * 5 := nsmul_eq_mul _ 5
      _ ≤ 4 * 5 := by
          have : ((T'.filter (· ∈ path5)).card : ℤ) ≤ 4 := by exact_mod_cast hc
          linarith
      _ = 20 := by norm_num
  calc ∑ e ∈ T', intW5 e.1 e.2
      = ∑ e ∈ T', ((if e = ((0 : Fin 5), (1 : Fin 5)) then (94 : ℤ) else 0) +
          (if e ∈ path5 then (5 : ℤ) else 0)) :=
        Finset.sum_congr rfl fun e he => w5_decomp e (hwf e he)
    _ = (∑ e ∈ T', if e = ((0 : Fin 5), (1 : Fin 5)) then (94 : ℤ) else 0) +
          ∑ e ∈ T', if e ∈ path5 then (5 : ℤ) else 0 := Finset.sum_add_distrib
    _ ≤ 114 := by linarith

lemma weightOf_W5 (T : Finset (Fin 5 × Fin 5)) :
    weightOf W5 T = ((∑ e ∈ T, intW5 e.1 e.2 : ℤ) : ℚ) := by
  unfold weightOf W5
  push_cast
  rfl

lemma W5_symm : ∀ i j, W5 i j = W5 j i := by
  have h : ∀ i j, intW5 i j = intW5 j i := by decide
  intro i j
  unfold W5
  exact_mod_cast h i j

lemma W5_nonneg : ∀ i j, 0 ≤ W5 i j := by
  have h : ∀ i j, (0 : ℤ) ≤ intW5 i j := by decide
  intro i j
  unfold W5
  exact_mod_cast h i j

lemma path5_minCost : ∀ T', IsSpanningTree 5 T' → costOf W5 path5 ≤ costOf W5 T' := by
  intro T' hT'
  rw [costOf_eq, costOf_eq]
  have hcardT' : T'.card = 4 := by
    have := hT'.2.1
    omega
  have hcardP : path5.card = 4 := by decide
  have hw : weightOf W5 T' ≤ weightOf W5 path5 := by
    rw [weightOf_W5, weightOf_W5]
    have h1 : (∑ e ∈ T', intW5 e.1 e.2) ≤ 114 := weightZ_le T' hT'.1
    have h2 : (∑ e ∈ path5, intW5 e.1 e.2) = 114 := by decide
    rw [h2]
    exact_mod_cast h1
  rw [hcardT', hcardP]
  linarith

lemma path5_isMinCostTree : IsMinCostTree W5 path5 := ⟨by decide, path5_minCost⟩

/-- Witness for C3 at a concrete input: the star is another spanning tree
of the 5-vertex complete graph, and its weight is at most the weight of
the minimum-cost tree `path5`. -/
theorem c3_witness : weightOf W5 star5 ≤ weightOf W5 path5 :=
  (c3_max_weight_tree W5 path5 W5_symm W5_nonneg path5_isMinCostTree).2.2 star5 (by decide)

/-! ## C4: breadth-first predecessor array -/

lemma layer_zero (T : Finset (Fin n × Fin n)) (r : Fin n) : layer T r 0 = {r} := rfl

lemma layer_succ (T : Finset (Fin n × Fin n)) (r : Fin n) (k : ℕ) :
    layer T r (k + 1) = expand T (layer T r k) :=
  Function.iterate_succ_apply' (expand T) k {r}

lemma subset_expand (T : Finset (Fin n × Fin n)) (S : Finset (Fin n)) : S ⊆ expand T S :=
  Finset.subset_union_left

lemma layer_subset_succ (T : Finset (Fin n × Fin n)) (r : Fin n) (k : ℕ) :
    layer T r k ⊆ layer T r (k + 1) := by
  rw [layer_succ]
  exact subset_expand T (layer T r k)

lemma layer_mono (T : Finset (Fin n × Fin n)) (r : Fin n) {k m : ℕ} (h : k ≤ m) :
    layer T r k ⊆ layer T r m := by
  induction m, h using Nat.le_induction with
  | base => exact subset_rfl
  | succ m hm ih => exact ih.trans (layer_subset_succ T r m)

lemma root_mem_layer (T : Finset (Fin n × Fin n)) (r : Fin n) (k : ℕ) :
    r ∈ layer T r k :=
  layer_mono T r (Nat.zero_le k) (by rw [layer_zero]; exact Finset.mem_singleton_self r)

lemma mem_expand (T : Finset (Fin n × Fin n)) (S : Finset (Fin n)) (v : Fin n) :
    v ∈ expand T S ↔ v ∈ S ∨ ∃ u ∈ S, hasEdge T u v := by
  unfold expand
  simp

lemma layer_eq_succ_of_eq {T : Finset (Fin n × Fin n)} {r : Fin n} {k : ℕ}
    (h : layer T r k = layer T r (k + 1)) : layer T r (k + 1) = layer T r (k + 2) := by
  calc layer T r (k + 1) = expand T (layer T r k) := layer_succ T r k
    _ = expand T (layer T r (k + 1)) := by rw [h]
    _ = layer T r (k + 2) := (layer_succ T r (k + 1)).symm

lemma layer_stab_aux (T : Finset (Fin n × Fin n)) (r : Fin n) :
    ∀ k, layer T r k = layer T r (k + 1) ∨ k + 1 ≤ (layer T r k).card := by
  intro k
  induction k with
  | zero =>
      right
      rw [layer_zero]
      simp
  | succ k ih =>
      by_cases heq : layer T r (k + 1) = layer T r (k + 2)
      · exact Or.inl heq
      · right
        rcases ih with heq' | hcard
        · exact absurd (layer_eq_succ_of_eq heq') heq
        · have hne : layer T r k ≠ layer T r (k + 1) := by
            intro h
            exact heq (layer_eq_succ_of_eq h)
          have hlt : (layer T r k).card < (layer T r (k + 1)).card :=
            Finset.card_lt_card (ssubset_of_ne_of_subset hne (layer_subset_succ T r k))
          omega

lemma layer_stab (T : Finset (Fin n × Fin n)) (r : Fin n) (hn : 0 < n) :
    layer T r n ⊆ layer T r (n - 1) := by
  rcases layer_stab_aux T r (n - 1) with heq | hcard
  · rw [show n - 1 + 1 = n from by omega] at heq
    rw [← heq]
  · have h1 : (layer T r (n - 1)).card ≤ n := by
      have := Finset.card_le_univ (layer T r (n - 1))
      simpa using this
    have h2 : (layer T r (n - 1)).card = n := by omega
    have huniv : layer T r (n - 1) = Finset.univ :=
      Finset.eq_univ_of_card _ (by simpa using h2)
    rw [huniv]
    exact fun v _ => Finset.mem_univ v

lemma countP_range_lt (K N : ℕ) (h : K ≤ N) :
    (List.range N).countP (fun m => decide (m < K)) = K := by
  obtain ⟨d, rfl⟩ : ∃ d, N = K + d := ⟨N - K, by omega⟩
  rw [List.range_add, List.countP_append]
  have h1 : (List.range K).countP (fun m => decide (m < K)) = K := by
    have := List.countP_eq_length
      (l := List.range K) (p := fun m => decide (m < K)) |>.mpr ?_
    · rw [this, List.length_range]
    · intro a ha
      simp only [decide_eq_true_eq]
      exact List.mem_range.mp ha
  have h2 : ((List.range d).map fun x => K + x).countP (fun m => decide (m < K)) = 0 := by
    rw [List.countP_eq_zero]
    intro a ha
    rw [List.mem_map] at ha
    obtain ⟨x, _, rfl⟩ := ha
    simp
  omega

/-- For a vertex reachable within `n` steps, `dtime` is the least layer
index containing it, it is at most `n`, and no earlier layer contains
the vertex. -/
lemma dtime_spec (T : Finset (Fin n × Fin n)) (r v : Fin n)
    (h : ∃ k, k ≤ n ∧ v ∈ layer T r k) :
    dtime T r v ≤ n ∧ v ∈ layer T r (dtime T r v) ∧
      ∀ m, m < dtime T r v → v ∉ layer T r m := by
  classical
  obtain ⟨k₀, hk₀n, hk₀⟩ := h
  have hex : ∃ k, v ∈ layer T r k := ⟨k₀, hk₀⟩
  have hj : v ∈ layer T r (Nat.find hex) := Nat.find_spec hex
  have hjle : Nat.find hex ≤ k₀ := Nat.find_min' hex hk₀
  have hleast : ∀ m, m < Nat.find hex → v ∉ layer T r m := fun m hm => Nat.find_min hex hm
  have hdt : dtime T r v = Nat.find hex := by
    unfold dtime
    have hcong : ∀ m ∈ List.range (n + 1),
        (decide (v ∉ layer T r m) = true) ↔ (decide (m < Nat.find hex) = true) := by
      intro m _
      by_cases hmj : m < Nat.find hex
      · simp [hleast m hmj, hmj]
      · push_neg at hmj
        have hmem : v ∈ layer T r m := layer_mono T r hmj hj
        have h1 : decide (v ∉ layer T r m) = false := by simp [hmem]
        have h2 : decide (m < Nat.find hex) = false := by simp [Nat.not_lt.mpr hmj]
        rw [h1, h2]
    rw [List.countP_congr hcong, countP_range_lt _ _ (by omega)]
  rw [hdt]
  exact ⟨by omega, hj, hleast⟩

lemma parent_spec (T : Finset (Fin n × Fin n)) (r v : Fin n) (hv : v ≠ r)
    (hdle : dtime T r v ≤ n) (hmem : v ∈ layer T r (dtime T r v))
    (hpred : v ∉ layer T r (dtime T r v - 1)) (hpos : 0 < dtime T r v) :
    ∃ u, parent T r v = some u ∧ u ∈ layer T r (dtime T r v - 1) ∧ hasEdge T u v := by
  unfold parent
  rw [if_neg hv, if_pos ⟨hpos, hdle⟩]
  have hstep : layer T r (dtime T r v) = expand T (layer T r (dtime T r v - 1)) := by
    conv_lhs => rw [show dtime T r v = (dtime T r v - 1) + 1 from by omega]
    exact layer_succ T r (dtime T r v - 1)
  rw [hstep, mem_expand] at hmem
  rcases hmem with h | ⟨u, hu, hedge⟩
  · exact absurd h hpred
  · rcases hfind : (List.finRange n).find? (fun u' =>
        decide (u' ∈ layer T r (dtime T r v - 1) ∧ hasEdge T u' v)) with _ | u'
    · rw [List.find?_eq_none] at hfind
      have := hfind u (List.mem_finRange u)
      simp only [decide_eq_true_eq] at this
      exact absurd ⟨hu, hedge⟩ this
    · have hp := List.find?_some hfind
      simp only [decide_eq_true_eq] at hp
      exact ⟨u', rfl, hp.1, hp.2⟩

lemma parent_root (T : Finset (Fin n × Fin n)) (r : Fin n) : parent T r r = none := by
  unfold parent
  rw [if_pos rfl]

lemma climb_root (T : Finset (Fin n × Fin n)) (r : Fin n) (k : ℕ) : climb T r k r = r := by
  cases k with
  | zero => rfl
  | succ k => simp [climb, parent_root]

/-- Every vertex discovered in layer `j ≤ n` climbs to the root within any
`m ≥ j` predecessor steps. -/
lemma climb_layer (T : Finset (Fin n × Fin n)) (r : Fin n) :
    ∀ j, j ≤ n → ∀ v, v ∈ layer T r j → ∀ m, j ≤ m → climb T r m v = r := by
  intro j
  induction j with
  | zero =>
      intro _ v hv m _
      rw [layer_zero] at hv
      rw [Finset.mem_singleton.mp hv]
      exact climb_root T r m
  | succ j ih =>
      intro hjn v hv m hm
      by_cases hvr : v = r
      · rw [hvr]
        exact climb_root T r m
      · by_cases hvj : v ∈ layer T r j
        · exact ih (by omega) v hvj m (by omega)
        · obtain ⟨hdn, hmem, hleast⟩ := dtime_spec T r v ⟨j + 1, by omega, hv⟩
          have hdle : dtime T r v ≤ j + 1 := by
            by_contra hcon
            push_neg at hcon
            exact hleast (j + 1) hcon hv
          have hpos : 0 < dtime T r v := by
            rcases Nat.eq_zero_or_pos (dtime T r v) with h0 | h
            · rw [h0, layer_zero] at hmem
              exact absurd (Finset.mem_singleton.mp hmem) hvr
            · exact h
          have hpred : v ∉ layer T r (dtime T r v - 1) := hleast _ (by omega)
          obtain ⟨u, hpar, huL, hedge⟩ := parent_spec T r v hvr hdn hmem hpred hpos
          have huj : u ∈ layer T r j := layer_mono T r (by omega) huL
          obtain ⟨m', rfl⟩ : ∃ m', m = m' + 1 := ⟨m - 1, by omega⟩
          show climb T r (m' + 1) v = r
          rw [show climb T r (m' + 1) v = climb T r m' u from by rw [climb, hpar]]
          exact ih (by omega) u huj m' (by omega)

/-- **C4.** For every symmetric non-negative MI matrix and every root
(forced to any valid index via `some`, or auto-selected via `none`), the
predecessor array returned by the tree builder has the entry `-1`
exactly at the root's index, and following predecessor links from any
vertex reaches the root within `n - 1` steps (so the parent graph is
acyclic and connected). -/
theorem c4_predecessor_array {n : ℕ} (W : Fin n → Fin n → ℚ)
    (T : Finset (Fin n × Fin n)) (ro : Option (Fin n)) (hn : 0 < n)
    (hsym : ∀ i j, W i j = W j i) (hnn : ∀ i j, 0 ≤ W i j)
    (hmst : IsMinCostTree W T) :
    (∀ v, mstBuilderTree W T ro hn v = -1 ↔ v = mstRoot W T ro hn) ∧
      ∀ v, climb T (mstRoot W T ro hn) (n - 1) v = mstRoot W T ro hn := by
  set r := mstRoot W T ro hn with hr
  have hcon : ∀ v, v ∈ layer T r n := fun v => hmst.1.2.2 r v
  constructor
  · intro v
    unfold mstBuilderTree bfsTree
    rw [← hr]
    by_cases hvr : v = r
    · simp [hvr]
    · rw [if_neg hvr]
      constructor
      · intro h
        rcases hpar : parent T r v with _ | u
        · rw [hpar] at h
          have h' : (-9999 : ℤ) = -1 := h
          norm_num at h'
        · rw [hpar] at h
          have h' : ((u : ℤ)) = -1 := h
          have h0 : (0 : ℤ) ≤ (u : ℤ) := Int.ofNat_nonneg u.val
          omega
      · intro h
        exact absurd h hvr
  · intro v
    have hv : v ∈ layer T r (n - 1) := layer_stab T r hn (hcon v)
    exact climb_layer T r (n - 1) (by omega) v hv (n - 1) le_rfl

/-- Witness for C4 at a concrete input: the matrix `W5`, its minimum-cost
tree `path5`, root forced to `2`. -/
theorem c4_witness :
    mstBuilderTree W5 path5 (some 2) (by decide) 2 = -1 ∧
      climb path5 (mstRoot W5 path5 (some 2) (by decide)) (5 - 1) 0 =
        mstRoot W5 path5 (some 2) (by decide) :=
  ⟨((c4_predecessor_array W5 path5 (some 2) (by decide) W5_symm W5_nonneg
      path5_isMinCostTree).1 2).mpr rfl,
    (c4_predecessor_array W5 path5 (some 2) (by decide) W5_symm W5_nonneg
      path5_isMinCostTree).2 0⟩

/-! ### Sanity: layers are walk-reachability balls, `dtime` is the
hop (shortest-walk) distance -/

lemma chain_snoc_iff (R : Fin n → Fin n → Prop) (b : Fin n) :
    ∀ (l : List (Fin n)) (r : Fin n),
      List.Chain R r (l ++ [b]) ↔ List.Chain R r l ∧ R (l.getLastD r) b := by
  intro l
  induction l with
  | nil =>
      intro r
      simp [List.chain_cons]
  | cons x l ih =>
      intro r
      rw [List.cons_append, List.chain_cons, ih x, List.chain_cons, List.getLastD_cons]
      tauto

/-- `v ∈ layer T r k` exactly when some walk of at most `k` edges joins
`r` to `v`: the layers are the breadth-first balls. -/
lemma mem_layer_iff_walk (T : Finset (Fin n × Fin n)) (r : Fin n) :
    ∀ (k : ℕ) (v : Fin n), v ∈ layer T r k ↔
      ∃ l : List (Fin n), List.Chain (hasEdge T) r l ∧ l.length ≤ k ∧ l.getLastD r = v := by
  intro k
  induction k with
  | zero =>
      intro v
      rw [layer_zero, Finset.mem_singleton]
      constructor
      · rintro rfl
        exact ⟨[], List.Chain.nil, by simp, rfl⟩
      · rintro ⟨l, hc, hl, he⟩
        have hnil : l = [] := List.length_eq_zero.mp (Nat.le_zero.mp hl)
        rw [hnil] at he
        exact he.symm
  | succ k ih =>
      intro v
      rw [layer_succ, mem_expand]
      constructor
      · rintro (hv | ⟨u, hu, hedge⟩)
        · obtain ⟨l, hc, hl, he⟩ := (ih v).mp hv
          exact ⟨l, hc, by omega, he⟩
        · obtain ⟨l, hc, hl, he⟩ := (ih u).mp hu
          refine ⟨l ++ [v], ?_, by rw [List.length_append]; simp; omega, ?_⟩
          · rw [chain_snoc_iff, he]
            exact ⟨hc, hedge⟩
          · exact List.getLastD_concat r v l
      · rintro ⟨l, hc, hl, he⟩
        rcases le_or_lt l.length k with hlk | hlk
        · exact Or.inl ((ih v).mpr ⟨l, hc, hlk, he⟩)
        · have hne : l ≠ [] := by
            intro hnil
            rw [hnil] at hlk
            simp at hlk
          obtain ⟨l', b, rfl⟩ : ∃ l' b, l = l' ++ [b] :=
            ⟨l.dropLast, l.getLast hne, (List.dropLast_append_getLast hne).symm⟩
          rw [chain_snoc_iff] at hc
          rw [List.getLastD_concat] at he
          subst he
          have hl' : l'.length ≤ k := by
            rw [List.length_append] at hl
            simp at hl
            omega
          exact Or.inr ⟨l'.getLastD r, (ih _).mpr ⟨l', hc.1, hl', rfl⟩, hc.2⟩

lemma exists_layer_of_dtime_le (T : Finset (Fin n × Fin n)) (r v : Fin n)
    (h : dtime T r v ≤ n) : ∃ k, k ≤ n ∧ v ∈ layer T r k := by
  by_contra hc
  push_neg at hc
  have hall : dtime T r v = n + 1 := by
    unfold dtime
    rw [List.countP_eq_length.mpr ?_, List.length_range]
    intro m hm
    have hmn : m ≤ n := by
      have := List.mem_range.mp hm
      omega
    simp only [decide_eq_true_eq]
    exact hc m hmn
  omega

/-- `dtime` is the unweighted shortest-path distance: it is attained by a
walk and bounds the length of every walk from the root to the vertex. -/
lemma dtime_shortest_walk (T : Finset (Fin n × Fin n)) (r v : Fin n)
    (hreach : v ∈ layer T r n) :
    (∃ l, List.Chain (hasEdge T) r l ∧ l.length = dtime T r v ∧ l.getLastD r = v) ∧
      ∀ l, List.Chain (hasEdge T) r l → l.getLastD r = v → dtime T r v ≤ l.length := by
  obtain ⟨hdn, hmem, hleast⟩ := dtime_spec T r v ⟨n, le_rfl, hreach⟩
  have hub : ∀ l, List.Chain (hasEdge T) r l → l.getLastD r = v → dtime T r v ≤ l.length := by
    intro l hc he
    rcases le_or_lt l.length n with hln | hln
    · have hmem' : v ∈ layer T r l.length :=
        (mem_layer_iff_walk T r l.length v).mpr ⟨l, hc, le_rfl, he⟩
      by_contra hcon
      push_neg at hcon
      exact hleast l.length hcon hmem'
    · omega
  refine ⟨?_, hub⟩
  obtain ⟨l, hc, hl, he⟩ := (mem_layer_iff_walk T r (dtime T r v) v).mp hmem
  have := hub l hc he
  exact ⟨l, hc, by omega, he⟩

/-- A spanning tree joins every pair of vertices by a walk. -/
lemma spanningTree_walk_connected {T : Finset (Fin n × Fin n)}
    (hT : IsSpanningTree n T) (r v : Fin n) :
    ∃ l, List.Chain (hasEdge T) r l ∧ l.getLastD r = v := by
  obtain ⟨l, hc, _, he⟩ := (mem_layer_iff_walk T r n v).mp (hT.2.2 r v)
  exact ⟨l, hc, he⟩

/-! ## C7: root selection uses weighted, not hop, distances

The counterexample evaluates the embedded dijkstra at `W5`/`path5`.  To
let the kernel compute, the rational weighted distances are transferred
to the integer-valued computation along the cast `ℤ → ℚ`. -/

lemma phiQ_top : phiQ ⊤ = ⊤ := rfl

lemma phiQ_coe (z : ℤ) : phiQ ((z : ℤ) : WithTop ℤ) = (((z : ℚ)) : WithTop ℚ) := rfl

lemma phiQ_lt (a b : WithTop ℤ) : phiQ a < phiQ b ↔ a < b := by
  induction a using WithTop.recTopCoe <;> induction b using WithTop.recTopCoe <;>
    simp [phiQ_top, phiQ_coe]

lemma phiQ_le (a b : WithTop ℤ) : phiQ a ≤ phiQ b ↔ a ≤ b := by
  induction a using WithTop.recTopCoe <;> induction b using WithTop.recTopCoe <;>
    simp [phiQ_top, phiQ_coe]

lemma phiQ_min (a b : WithTop ℤ) : phiQ (min a b) = min (phiQ a) (phiQ b) := by
  rcases le_total a b with h | h
  · rw [min_eq_left h, min_eq_left ((phiQ_le a b).mpr h)]
  · rw [min_eq_right h, min_eq_right ((phiQ_le b a).mpr h)]

lemma phiQ_max (a b : WithTop ℤ) : phiQ (max a b) = max (phiQ a) (phiQ b) := by
  rcases le_total a b with h | h
  · rw [max_eq_right h, max_eq_right ((phiQ_le a b).mpr h)]
  · rw [max_eq_left h, max_eq_left ((phiQ_le b a).mpr h)]

lemma phiQ_add (a b : WithTop ℤ) : phiQ (a + b) = phiQ a + phiQ b := by
  induction a using WithTop.recTopCoe <;> induction b using WithTop.recTopCoe <;>
    simp [phiQ_top, phiQ_coe, ← WithTop.coe_add]

lemma phiQ_inf {β : Type} (s : Finset β) (f : β → WithTop ℤ) :
    phiQ (s.inf f) = s.inf fun x => phiQ (f x) := by
  induction s using Finset.cons_induction with
  | empty => rfl
  | cons a s ha ih => rw [Finset.inf_cons, Finset.inf_cons, ← ih, ← phiQ_min]

lemma relaxW_transfer (C : Fin n → Fin n → ℤ) (T : Finset (Fin n × Fin n))
    (d : Fin n → WithTop ℤ) :
    relaxW (fun i j => ((C i j : ℤ) : ℚ)) T (fun v => phiQ (d v)) =
      fun v => phiQ (relaxW C T d v) := by
  funext v
  unfold relaxW
  rw [phiQ_min, phiQ_inf]
  congr 1
  refine congrArg _ (funext fun u => ?_)
  by_cases he : hasEdge T u v
  · simp [he, phiQ_add, phiQ_coe]
  · simp [he, phiQ_top]

lemma bfDist_transfer (C : Fin n → Fin n → ℤ) (T : Finset (Fin n × Fin n)) (u v : Fin n) :
    bfDist (fun i j => ((C i j : ℤ) : ℚ)) T u v = phiQ (bfDist C T u v) := by
  unfold bfDist
  have key : ∀ (k : ℕ) (d : Fin n → WithTop ℤ),
      (relaxW (fun i j => ((C i j : ℤ) : ℚ)) T)^[k] (fun w => phiQ (d w)) =
        fun w => phiQ ((relaxW C T)^[k] d w) := by
    intro k
    induction k with
    | zero => intro d; rfl
    | succ k ih =>
        intro d
        rw [Function.iterate_succ_apply, Function.iterate_succ_apply,
          relaxW_transfer, ih]
  have hinit : (fun w : Fin n => if w = u then ((0 : ℚ) : WithTop ℚ) else ⊤) =
      fun w => phiQ (if w = u then ((0 : ℤ) : WithTop ℤ) else ⊤) := by
    funext w
    by_cases hw : w = u
    · rw [if_pos hw, if_pos hw]
      rfl
    · rw [if_neg hw, if_neg hw]
      rfl
  rw [hinit, key n]

lemma eccW_transfer (C : Fin n → Fin n → ℤ) (T : Finset (Fin n × Fin n)) (u : Fin n) :
    eccW (fun i j => ((C i j : ℤ) : ℚ)) T u = phiQ (eccW C T u) := by
  unfold eccW
  have hfold : ∀ (l : List (Fin n)) (acc : WithTop ℤ),
      (l.map (bfDist (fun i j => ((C i j : ℤ) : ℚ)) T u)).foldl max (phiQ acc) =
        phiQ ((l.map (bfDist C T u)).foldl max acc) := by
    intro l
    induction l with
    | nil => intro acc; rfl
    | cons x l ih =>
        intro acc
        rw [List.map_cons, List.map_cons, List.foldl_cons, List.foldl_cons,
          bfDist_transfer, ← phiQ_max, ih]
  rw [bfDist_transfer, hfold]

lemma argmin_comp_strictmono {β γ γ' : Type} [LinearOrder γ] [LinearOrder γ']
    (φ : γ → γ') (hφ : ∀ a b, φ a < φ b ↔ a < b) (f : β → γ) (l : List β) :
    l.argmin (fun x => φ (f x)) = l.argmin f := by
  unfold List.argmin
  suffices h : ∀ acc : Option β,
      l.foldl (List.argAux fun b c => φ (f b) < φ (f c)) acc =
        l.foldl (List.argAux fun b c => f b < f c) acc from h none
  induction l with
  | nil => intro acc; rfl
  | cons x l ih =>
      intro acc
      rw [List.foldl_cons, List.foldl_cons, ih]
      congr 1
      unfold List.argAux
      cases acc with
      | none => rfl
      | some c => simp only [hφ]

lemma plus1_W5 : plus1 W5 = fun i j => (((intW5 i j + 1 : ℤ)) : ℚ) := by
  funext i j
  unfold plus1 W5
  push_cast
  ring

/-- The weighted eccentricities on the counterexample instance, matching
a hand run of dijkstra on `abs(mst)` (weights `100, 6, 6, 6` along the
path): vertex `1` uniquely minimises them. -/
lemma eccWZ_W5_values :
    (List.finRange 5).map (eccW (fun i j => intW5 i j + 1) path5) =
      [((118 : ℤ) : WithTop ℤ), ((100 : ℤ) : WithTop ℤ), ((106 : ℤ) : WithTop ℤ),
        ((112 : ℤ) : WithTop ℤ), ((118 : ℤ) : WithTop ℤ)] := by decide

lemma autoRoot_W5 : autoRoot (by decide) W5 path5 = 1 := by
  unfold autoRoot
  rw [plus1_W5]
  have hecc : (eccW (fun i j => ((intW5 i j + 1 : ℤ) : ℚ)) path5) =
      fun u => phiQ (eccW (fun i j => intW5 i j + 1) path5 u) := by
    funext u
    exact eccW_transfer (fun i j => intW5 i j + 1) path5 u
  rw [hecc, argmin_comp_strictmono phiQ phiQ_lt (eccW (fun i j => intW5 i j + 1) path5)]
  have : (List.finRange 5).argmin (eccW (fun i j => intW5 i j + 1) path5) = some 1 := by
    decide
  rw [this]
  rfl

/-- **C7 (amended).** When no root is given, the tree builder selects a
vertex minimising the maximum *weighted* shortest-path distance over the
spanning tree, the weights being the mutual informations shifted by one
(`abs(-(W+1)) = W + 1` on tree edges) — not the unweighted hop
distance. -/
theorem c7_weighted_root_selection {n : ℕ} (W : Fin n → Fin n → ℚ)
    (T : Finset (Fin n × Fin n)) (hn : 0 < n)
    (hsym : ∀ i j, W i j = W j i) (hnn : ∀ i j, 0 ≤ W i j)
    (hmst : IsMinCostTree W T) :
    ∀ k : Fin n, eccW (plus1 W) T (mstRoot W T none hn) ≤ eccW (plus1 W) T k := by
  intro k
  rcases h : (List.finRange n).argmin (eccW (plus1 W) T) with _ | m
  · exfalso
    have hne : List.finRange n ≠ [] := by
      intro hc
      have := List.length_finRange n
      rw [hc] at this
      simp at this
      omega
    exact hne (List.argmin_eq_none.mp h)
  · have hroot : mstRoot W T none hn = m := by
      show autoRoot hn W T = m
      unfold autoRoot
      rw [h]
      rfl
    rw [hroot]
    exact List.le_of_mem_argmin (List.mem_finRange k) (Option.mem_def.mpr h)

/-- Witness for C7's amended statement at a concrete input. -/
theorem c7_witness :
    eccW (plus1 W5) path5 (mstRoot W5 path5 none (by decide)) ≤ eccW (plus1 W5) path5 0 :=
  c7_weighted_root_selection W5 path5 (by decide) W5_symm W5_nonneg
    path5_isMinCostTree 0

/-- **C7 counterexample.** For the symmetric non-negative matrix `W5`
whose minimum-cost spanning tree is the path `0-1-2-3-4` (weights
`99, 5, 5, 5`), the auto-selected root is vertex `1` — the minimiser of
the *weighted* eccentricity — whose hop eccentricity is `3`, although
vertex `2` has hop eccentricity `2`: the builder does not minimise the
unweighted (edge-existence-only) shortest-path eccentricity claimed. -/
theorem c7_counterexample :
    (∀ i j, W5 i j = W5 j i) ∧ (∀ i j, 0 ≤ W5 i j) ∧ IsMinCostTree W5 path5 ∧
      ¬ (hopEcc path5 (mstRoot W5 path5 none (by decide)) ≤ hopEcc path5 2) := by
  refine ⟨W5_symm, W5_nonneg, path5_isMinCostTree, ?_⟩
  have hroot : mstRoot W5 path5 none (by decide) = 1 := autoRoot_W5
  rw [hroot]
  decide

end ChowLiu
